import Mathlib

/-!
Shallow embedding of the Adaptive Telemetry & Alerting Engine of the
NetMonitor Pro desktop application (final revision of
`src/electron/main.ts` together with the renderer hooks
`src/src/hooks/useGeoLocation.ts` and `src/src/hooks/useSettings.ts`).

Numbers that JavaScript stores as IEEE doubles (rates, thresholds,
timestamps in milliseconds) are modelled as rationals `ℚ`; process
identifiers are modelled as `Int`.  Fallible OS calls are modelled by a
boolean (or optional) oracle passed explicitly to the embedded function.
-/

namespace NetMonitor

/-! ### Process-kill handlers (`main.ts`, `kill-process` and
`kill-process-secure`)

`KillOutcome.invokedKill` records whether the handler reached the
`kill(pid, 'SIGKILL', …)` call; `osOk` is the outcome of that OS call
(`true` when the callback receives no error). -/

structure KillOutcome where
  invokedKill : Bool
  result : Bool
deriving DecidableEq

/-- Handler `ipcMain.handle('kill-process')`: `if (!pid || pid === -1) resolve(false)`
else invoke `kill` and resolve with the OS outcome.  For a numeric `pid`,
`!pid` is true exactly for `pid = 0` (NaN is not representable here). -/
def killProcess (pid : Int) (osOk : Bool) : KillOutcome :=
  if pid = 0 ∨ pid = -1 then ⟨false, false⟩ else ⟨true, osOk⟩

/-- Handler `ipcMain.handle('kill-process-secure')`: non-integers are rejected
(modelled by the `Int` domain), `pid < 1000` is refused before any OS
call, otherwise `kill` runs and its outcome is returned. -/
def killProcessSecure (pid : Int) (osOk : Bool) : KillOutcome :=
  if pid < 1000 then ⟨false, false⟩ else ⟨true, osOk⟩

/-! ### Settings store (`main.ts`, `AppSettings` / `update-settings`) -/

structure AppSettings where
  threshold : ℚ
  cooldownMinutes : ℚ
  pauseMinutes : ℚ
deriving DecidableEq

/-- Default `currentSettings` until the frontend syncs. -/
def defaultSettings : AppSettings := ⟨5 * 1024 * 1024, 5, 5⟩

/-- An `update-settings` payload: the whole object may be absent (falsy),
and each field may be individually absent from the object. -/
structure SettingsPayload where
  threshold : Option ℚ
  cooldownMinutes : Option ℚ
  pauseMinutes : Option ℚ
deriving DecidableEq

/-- Handler `ipcMain.on('update-settings')`: `if (settings) currentSettings =
{ ...currentSettings, ...settings }` — a falsy payload is ignored, any
object payload is spread field-by-field over the current settings. -/
def updateSettings (cur : AppSettings) (payload : Option SettingsPayload) : AppSettings :=
  match payload with
  | none => cur
  | some p =>
    { threshold := p.threshold.getD cur.threshold
      cooldownMinutes := p.cooldownMinutes.getD cur.cooldownMinutes
      pauseMinutes := p.pauseMinutes.getD cur.pauseMinutes }

/-! ### Alert engine (`main.ts`, `monitorLoop` alert logic and
`set-paused`) -/

structure MonitorState where
  lastAlertTime : ℚ
  pauseAlertsUntil : ℚ
deriving DecidableEq

inductive Direction where
  | download
  | upload
deriving DecidableEq

structure TrafficAlert where
  direction : Direction
  rate : ℚ
deriving DecidableEq

/-- The cooldown window, `const cooldownMs = currentSettings.cooldownMinutes * 60 * 1000`. -/
def cooldownMs (s : AppSettings) : ℚ := s.cooldownMinutes * 60 * 1000

/-- One pass of the alert logic in `monitorLoop` for an aggregated sample
`(totalRx, totalTx)` observed at time `now` (ms).  Mirrors:
`isPaused = now < pauseAlertsUntil`; alerts evaluated only when
`!isPaused && threshold > 0`; fire only when
`now - lastAlertTime > cooldownMs`; `totalRx > threshold` wins over
`totalTx > threshold` (else-if); an alert records `lastAlertTime = now`. -/
def monitorTick (s : AppSettings) (st : MonitorState) (now totalRx totalTx : ℚ) :
    MonitorState × Option TrafficAlert :=
  if ¬ now < st.pauseAlertsUntil ∧ 0 < s.threshold then
    if cooldownMs s < now - st.lastAlertTime then
      if s.threshold < totalRx then
        ({ st with lastAlertTime := now }, some ⟨.download, totalRx⟩)
      else if s.threshold < totalTx then
        ({ st with lastAlertTime := now }, some ⟨.upload, totalTx⟩)
      else (st, none)
    else (st, none)
  else (st, none)

/-- Handler `ipcMain.on('set-paused')`: a positive duration sets
`pauseAlertsUntil = Date.now() + durationMs`, anything else resets it
to `0` (resume). -/
def setPaused (st : MonitorState) (now durationMs : ℚ) : MonitorState :=
  if 0 < durationMs then { st with pauseAlertsUntil := now + durationMs }
  else { st with pauseAlertsUntil := 0 }

end NetMonitor

namespace NetMonitor

/-! ### Theorems: process-kill floor (C1) -/

/-- C1 counterexample: the claim says `kill-process(999)` returns `false`
without invoking the OS kill primitive, but the `kill-process` handler
only rejects `pid` falsy or `-1`: at `pid = 999` it invokes the OS kill
and returns the OS outcome (in particular `true` on success). -/
theorem killProcess_999_invokes_kill :
    killProcess 999 true = ⟨true, true⟩ ∧ killProcess 999 false = ⟨true, false⟩ := by
  constructor <;> rfl

/-- C1 (amended): the low-PID floor of 1000 is enforced by the
`kill-process-secure` handler, which returns `false` without invoking the
OS kill primitive for every `pid < 1000` and attempts OS termination
(returning boolean success) for every `pid ≥ 1000`; the plain
`kill-process` handler refuses only `pid = 0` and `pid = -1` and
otherwise attempts OS termination and returns boolean success. -/
theorem killProcessSecure_floor (pid : Int) (osOk : Bool) :
    (pid < 1000 → killProcessSecure pid osOk = ⟨false, false⟩)
    ∧ (1000 ≤ pid → killProcessSecure pid osOk = ⟨true, osOk⟩)
    ∧ (pid = 0 ∨ pid = -1 → killProcess pid osOk = ⟨false, false⟩)
    ∧ (¬ (pid = 0 ∨ pid = -1) → killProcess pid osOk = ⟨true, osOk⟩) := by
  refine ⟨fun h => ?_, fun h => ?_, fun h => ?_, fun h => ?_⟩
  · simp [killProcessSecure, h]
  · simp [killProcessSecure, not_lt.mpr h]
  · simp [killProcess, h]
  · simp [killProcess, h]

/-- C1 witness: the floor at the example pids of the spec —
`kill-process-secure` refuses 999 without an OS call and attempts OS
termination for 5000. -/
theorem killProcessSecure_floor_examples :
    killProcessSecure 999 true = ⟨false, false⟩
    ∧ killProcessSecure 5000 true = ⟨true, true⟩ :=
  ⟨(killProcessSecure_floor 999 true).1 (by decide),
   (killProcessSecure_floor 5000 true).2.1 (by decide)⟩

/-! ### Theorems: settings update (C2) -/

/-- C2 counterexample: a payload carrying only a malformed
`cooldownMinutes = 0` is not rejected — it is merged field-by-field into
the previous valid settings, producing a state that differs from the
previous one and violates the `cooldown ≥ 1` invariant. -/
theorem updateSettings_partial_merge_violates_invariant :
    updateSettings defaultSettings (some ⟨none, some 0, none⟩)
        = ⟨5 * 1024 * 1024, 0, 5⟩
    ∧ updateSettings defaultSettings (some ⟨none, some 0, none⟩) ≠ defaultSettings
    ∧ (updateSettings defaultSettings (some ⟨none, some 0, none⟩)).cooldownMinutes < 1 := by
  refine ⟨rfl, fun h => ?_, ?_⟩
  · have h2 := congrArg AppSettings.cooldownMinutes h
    simp only [updateSettings, defaultSettings, Option.getD_some] at h2
    norm_num at h2
  · norm_num [updateSettings, defaultSettings]

/-- C2 (amended): a falsy `update-settings` payload is ignored and the
previous settings are retained; any object payload is merged
field-by-field — fields present in the payload overwrite the current
value, missing fields retain their previous values — with no validation
of field values, so a malformed present field is accepted verbatim; a
payload carrying all fields replaces the settings wholesale. -/
theorem updateSettings_spread_merge (cur : AppSettings) (p : SettingsPayload) (a b c : ℚ) :
    updateSettings cur none = cur
    ∧ updateSettings cur (some p)
        = ⟨p.threshold.getD cur.threshold, p.cooldownMinutes.getD cur.cooldownMinutes,
           p.pauseMinutes.getD cur.pauseMinutes⟩
    ∧ updateSettings cur (some ⟨some a, some b, some c⟩) = ⟨a, b, c⟩ := by
  exact ⟨rfl, rfl, rfl⟩

/-! ### Theorems: cooldown (C3) -/

/-- C3 counterexample: the claim says that once `now - lastAlertAt ≥
cooldown` the next breaching sample is evaluated fresh, but the code
fires only on the strict inequality `now - lastAlertTime > cooldownMs`:
with cooldown 5 minutes (300000 ms), `lastAlertAt = 0` and a breaching
armed sample at `now = 300000` — exactly the cooldown later — no alert
is raised. -/
theorem cooldown_boundary_counterexample :
    cooldownMs ⟨1000, 5, 5⟩ ≤ (300000 : ℚ) - 0
    ∧ (1000 : ℚ) < 2000
    ∧ ¬ (300000 : ℚ) < 0
    ∧ (monitorTick ⟨1000, 5, 5⟩ ⟨0, 0⟩ 300000 2000 0).2 = none := by
  refine ⟨by norm_num [cooldownMs], by norm_num, by norm_num, ?_⟩
  norm_num [monitorTick, cooldownMs]

/-- C3 (amended): after an alert at `lastAlertAt`, no new alert is raised
for any breaching sample while `now - lastAlertAt ≤ cooldown`, and once
`now - lastAlertAt` strictly exceeds the cooldown the next breaching
sample is evaluated fresh; with threshold 1000 and a 5-second cooldown,
two consecutive samples of `rx = 2000` one second apart produce exactly
one alert. -/
theorem cooldown_enforcement (s : AppSettings) (st : MonitorState) (t₁ t₂ rx₁ rx₂ tx : ℚ)
    (hthr : 0 < s.threshold)
    (hp₁ : st.pauseAlertsUntil ≤ t₁)
    (hc₁ : cooldownMs s < t₁ - st.lastAlertTime)
    (hrx₁ : s.threshold < rx₁) :
    monitorTick s st t₁ rx₁ tx = ({ st with lastAlertTime := t₁ }, some ⟨.download, rx₁⟩)
    ∧ (t₂ - t₁ ≤ cooldownMs s →
        (monitorTick s { st with lastAlertTime := t₁ } t₂ rx₂ tx).2 = none)
    ∧ (cooldownMs s < t₂ - t₁ → st.pauseAlertsUntil ≤ t₂ → s.threshold < rx₂ →
        (monitorTick s { st with lastAlertTime := t₁ } t₂ rx₂ tx).2 = some ⟨.download, rx₂⟩) := by
  refine ⟨?_, fun h => ?_, fun h hp₂ hrx₂ => ?_⟩
  · rw [monitorTick, if_pos ⟨not_lt.mpr hp₁, hthr⟩, if_pos hc₁, if_pos hrx₁]
  · rw [monitorTick]
    split_ifs with h1 h2 h3 h4 <;> first
      | rfl
      | (exfalso; revert h2; simp only [not_lt]; intro h2; exact absurd h2 (not_lt.mpr h))
  · rw [monitorTick, if_pos ⟨not_lt.mpr hp₂, hthr⟩, if_pos (by simpa using h), if_pos hrx₂]

/-- C3 witness: threshold 1000, cooldown 5 seconds (`cooldownMinutes =
1/12`), two breaching samples `rx = 2000` at times 100 and 1100 ms: the
first raises the download alert, the second is suppressed — exactly one
alert. -/
theorem cooldown_enforcement_witness :
    monitorTick ⟨1000, 1/12, 5⟩ ⟨-100000, 0⟩ 100 2000 0
      = (⟨100, 0⟩, some ⟨.download, 2000⟩)
    ∧ (monitorTick ⟨1000, 1/12, 5⟩ ⟨100, 0⟩ 1100 2000 0).2 = none := by
  have h := cooldown_enforcement ⟨1000, 1/12, 5⟩ ⟨-100000, 0⟩ 100 1100 2000 2000 0
    (by norm_num) (by norm_num) (by norm_num [cooldownMs]) (by norm_num)
  exact ⟨h.1, h.2.1 (by norm_num [cooldownMs])⟩

/-! ### Theorems: pause window (C4) -/

/-- C4: while paused (`now < pausedUntil`) breaching samples are not
evaluated and produce no alert and no state change; the pause ends
exactly when `now` reaches `pausedUntil`, after which a breaching armed
sample produces an alert again; `set-paused(d)` with `d > 0` sets
`pausedUntil = now + d`, and `set-paused(0)` clears the pause window so
the engine is armed again for every nonnegative `now`. -/
theorem pause_suppression (s : AppSettings) (st : MonitorState) (t₀ d now rx tx : ℚ)
    (hthr : 0 < s.threshold) (hrx : s.threshold < rx)
    (hcool : cooldownMs s < now - st.lastAlertTime) :
    (0 < d →
      (setPaused st t₀ d).pauseAlertsUntil = t₀ + d
      ∧ (now < t₀ + d → monitorTick s (setPaused st t₀ d) now rx tx = (setPaused st t₀ d, none))
      ∧ (t₀ + d ≤ now →
          (monitorTick s (setPaused st t₀ d) now rx tx).2 = some ⟨.download, rx⟩))
    ∧ ((setPaused st t₀ 0).pauseAlertsUntil = 0
      ∧ (0 ≤ now → (monitorTick s (setPaused st t₀ 0) now rx tx).2 = some ⟨.download, rx⟩)) := by
  constructor
  · intro hd
    have hpu : (setPaused st t₀ d).pauseAlertsUntil = t₀ + d := by
      rw [setPaused, if_pos hd]
    refine ⟨hpu, fun hnow => ?_, fun hnow => ?_⟩
    · rw [monitorTick, if_neg]
      intro hc
      exact hc.1 (by rw [hpu]; exact hnow)
    · have hla : (setPaused st t₀ d).lastAlertTime = st.lastAlertTime := by
        rw [setPaused, if_pos hd]
      rw [monitorTick, if_pos ⟨by rw [hpu]; exact not_lt.mpr hnow, hthr⟩,
        if_pos (by rw [hla]; exact hcool), if_pos hrx]
  · have hpu : (setPaused st t₀ 0).pauseAlertsUntil = 0 := by
      rw [setPaused, if_neg (by norm_num)]
    have hla : (setPaused st t₀ 0).lastAlertTime = st.lastAlertTime := by
      rw [setPaused, if_neg (by norm_num)]
    refine ⟨hpu, fun hnow => ?_⟩
    rw [monitorTick, if_pos ⟨by rw [hpu]; exact not_lt.mpr hnow, hthr⟩,
      if_pos (by rw [hla]; exact hcool), if_pos hrx]

/-- C4 witness: after `set-paused(5000)` at time 0, a breaching sample at
2000 ms produces no alert, a breaching sample at 6000 ms (after the
auto-resume) produces the download alert, and after `set-paused(0)` a
breaching sample at time 0 produces the download alert immediately. -/
theorem pause_suppression_witness :
    monitorTick ⟨1000, 1/12, 5⟩ (setPaused ⟨-100000, 0⟩ 0 5000) 2000 2000 0
      = (setPaused ⟨-100000, 0⟩ 0 5000, none)
    ∧ (monitorTick ⟨1000, 1/12, 5⟩ (setPaused ⟨-100000, 0⟩ 0 5000) 6000 2000 0).2
      = some ⟨.download, 2000⟩
    ∧ (monitorTick ⟨1000, 1/12, 5⟩ (setPaused ⟨-100000, 0⟩ 0 0) 0 2000 0).2
      = some ⟨.download, 2000⟩ := by
  have h1 := pause_suppression ⟨1000, 1/12, 5⟩ ⟨-100000, 0⟩ 0 5000 2000 2000 0
    (by norm_num) (by norm_num) (by norm_num [cooldownMs])
  have h2 := pause_suppression ⟨1000, 1/12, 5⟩ ⟨-100000, 0⟩ 0 5000 6000 2000 0
    (by norm_num) (by norm_num) (by norm_num [cooldownMs])
  have h3 := pause_suppression ⟨1000, 1/12, 5⟩ ⟨-100000, 0⟩ 0 0 0 2000 0
    (by norm_num) (by norm_num) (by norm_num [cooldownMs])
  exact ⟨(h1.1 (by norm_num)).2.1 (by norm_num),
    (h2.1 (by norm_num)).2.2 (by norm_num), h3.2.2 (by norm_num)⟩

/-! ### Theorems: rx/tx tie-break (C8) -/

/-- C8: when a single armed sample breaches the threshold in both
directions, the tick raises exactly one notification (the per-tick
result is a single optional alert) and it is the download (rx) one. -/
theorem rx_priority (s : AppSettings) (st : MonitorState) (now rx tx : ℚ)
    (hp : st.pauseAlertsUntil ≤ now) (hthr : 0 < s.threshold)
    (hcool : cooldownMs s < now - st.lastAlertTime)
    (hrx : s.threshold < rx) (htx : s.threshold < tx) :
    monitorTick s st now rx tx = ({ st with lastAlertTime := now }, some ⟨.download, rx⟩) := by
  rw [monitorTick, if_pos ⟨not_lt.mpr hp, hthr⟩, if_pos hcool, if_pos hrx]

/-- C8 witness: with threshold 1000 and an armed state, a sample with
`rx = 2000` and `tx = 3000` raises the single download notification. -/
theorem rx_priority_witness :
    monitorTick ⟨1000, 1/12, 5⟩ ⟨-100000, 0⟩ 100 2000 3000
      = (⟨100, 0⟩, some ⟨.download, 2000⟩) :=
  rx_priority ⟨1000, 1/12, 5⟩ ⟨-100000, 0⟩ 100 2000 3000
    (by norm_num) (by norm_num) (by norm_num [cooldownMs]) (by norm_num) (by norm_num)

end NetMonitor

namespace NetMonitor

/-! ### Bandwidth task: interface aggregation (`monitorLoop`, the loop
over `si.networkStats()` results) -/

/-- One interface record of `si.networkStats()` as used by the loop. -/
structure IfaceStat where
  iface : String
  operstate : String
  rx_sec : ℚ
  tx_sec : ℚ
deriving DecidableEq

/-- The loop's activity test:
`iface.operstate === 'up' || iface.rx_sec > 0 || iface.tx_sec > 0`. -/
def isActiveIface (i : IfaceStat) : Bool :=
  i.operstate == "up" || decide (0 < i.rx_sec) || decide (0 < i.tx_sec)

/-- The aggregated sample sent on `traffic-update`. -/
structure AggStats where
  rx_sec : ℚ
  tx_sec : ℚ
  iface : String
deriving DecidableEq

/-- Loop body: active interfaces add their rates to the totals, and the
first active interface (with a nonempty name, since `if (!activeIface)`
re-triggers on an empty string) fixes the display name. -/
def sumStep (acc : ℚ × ℚ × String) (i : IfaceStat) : ℚ × ℚ × String :=
  if isActiveIface i then
    (acc.1 + i.rx_sec, acc.2.1 + i.tx_sec, if acc.2.2 = "" then i.iface else acc.2.2)
  else acc

/-- The whole aggregation pass over `networkStats`, including the
`activeIface || 'merged'` fallback of the emitted object. -/
def aggregateIfaces (stats : List IfaceStat) : AggStats :=
  let r := stats.foldl sumStep (0, 0, "")
  ⟨r.1, r.2.1, if r.2.2 = "" then "merged" else r.2.2⟩

/-- First nonempty string of a list, `""` when there is none — the value
the `activeIface` accumulator reaches. -/
def firstNonempty : List String → String
  | [] => ""
  | x :: xs => if x = "" then firstNonempty xs else x

theorem foldl_sumStep (stats : List IfaceStat) : ∀ (rx tx : ℚ) (nm : String),
    stats.foldl sumStep (rx, tx, nm) =
      (rx + ((stats.filter isActiveIface).map (fun i => i.rx_sec)).sum,
       tx + ((stats.filter isActiveIface).map (fun i => i.tx_sec)).sum,
       if nm = "" then firstNonempty ((stats.filter isActiveIface).map (fun i => i.iface))
       else nm) := by
  induction stats with
  | nil => intro rx tx nm; by_cases h : nm = "" <;> simp [firstNonempty, h]
  | cons i rest ih =>
    intro rx tx nm
    by_cases hi : isActiveIface i
    · rw [List.foldl_cons]
      rw [show sumStep (rx, tx, nm) i
            = (rx + i.rx_sec, tx + i.tx_sec, if nm = "" then i.iface else nm) from
          by rw [sumStep, if_pos hi]]
      rw [ih]
      simp only [List.filter_cons_of_pos hi, List.map_cons, List.sum_cons]
      refine congrArg₂ _ (by ring) (congrArg₂ _ (by ring) ?_)
      by_cases hnm : nm = ""
      · subst hnm
        simp [firstNonempty]
      · simp [hnm]
    · rw [List.foldl_cons]
      rw [show sumStep (rx, tx, nm) i = (rx, tx, nm) from by rw [sumStep, if_neg hi]]
      rw [ih, List.filter_cons_of_neg hi]

/-- The concrete `eth0` interface of the spec scenario: operstate up,
rx 6 MiB/s. -/
def ethStat : IfaceStat := ⟨"eth0", "up", 6 * 1024 * 1024, 0⟩

/-- The concrete idle `wlan0` interface of the spec scenario. -/
def wlanStat : IfaceStat := ⟨"wlan0", "down", 0, 0⟩

/-- C9: the bandwidth task sums the rx and tx rates over exactly the
interfaces considered active (operstate `"up"`, or strictly positive
instantaneous rx or tx rate) and selects as representative name the
first active interface's nonempty name (falling back to `"merged"`); in
the spec scenario `{eth0: rx = 6 MiB/s, up; wlan0: idle}` the emitted
sample carries `rx_sec = 6 * 1024 * 1024` and `iface = "eth0"`. -/
theorem bandwidth_aggregation (stats : List IfaceStat) :
    (aggregateIfaces stats).rx_sec = ((stats.filter isActiveIface).map (fun i => i.rx_sec)).sum
    ∧ (aggregateIfaces stats).tx_sec = ((stats.filter isActiveIface).map (fun i => i.tx_sec)).sum
    ∧ (aggregateIfaces stats).iface =
        (if firstNonempty ((stats.filter isActiveIface).map (fun i => i.iface)) = ""
         then "merged"
         else firstNonempty ((stats.filter isActiveIface).map (fun i => i.iface)))
    ∧ aggregateIfaces [ethStat, wlanStat] = ⟨6 * 1024 * 1024, 0, "eth0"⟩ := by
  refine ⟨?_, ?_, ?_, ?_⟩
  · rw [aggregateIfaces, foldl_sumStep]; simp
  · rw [aggregateIfaces, foldl_sumStep]; simp
  · rw [aggregateIfaces, foldl_sumStep]; simp
  · have h1 : isActiveIface ethStat = true := by
      rw [isActiveIface]; simp [ethStat]
    rw [aggregateIfaces, foldl_sumStep]
    rw [List.filter_cons_of_pos h1]
    by_cases h2 : isActiveIface wlanStat
    · exfalso
      rw [isActiveIface] at h2
      simp [wlanStat] at h2
    · rw [List.filter_cons_of_neg h2]
      simp [ethStat, firstNonempty, AggStats.mk.injEq]

end NetMonitor

namespace NetMonitor

/-! ### Connection aggregator (`useSettings.ts` `useNetworkData`
connection-list effect; identical logic in the first revision's
`get-process-usage` handler) -/

/-- One record of the `si.networkConnections()` list as consumed by the
aggregator.  `pid = none` models `conn.pid` not being a number;
`process = ""` models a falsy `conn.process`. -/
structure ConnRecord where
  pid : Option Int
  process : String
  protocol : String
deriving DecidableEq

/-- JavaScript `String.prototype.startsWith`, modelled over the
character list of the string. -/
def strStartsWith (s pre : String) : Bool := pre.data.isPrefixOf s.data

/-- The grouping key, `typeof conn.pid === 'number' ? conn.pid : -1`. -/
def connKey (c : ConnRecord) : Int := c.pid.getD (-1)

/-- One value of the `aggregated` map. -/
structure ProcGroup where
  name : String
  pid : Int
  connections : ℕ
  tcp : ℕ
  udp : ℕ
deriving DecidableEq

/-- The per-connection mutation of its group: bump `connections`, bump
`tcp`/`udp` by case-insensitive protocol prefix (else-if, so a protocol
counts toward at most one), and overwrite `name` when `conn.process` is
truthy. -/
def bumpGroup (g : ProcGroup) (c : ConnRecord) : ProcGroup :=
  { name := if c.process = "" then g.name else c.process
    pid := g.pid
    connections := g.connections + 1
    tcp := if strStartsWith c.protocol.toLower "tcp" then g.tcp + 1 else g.tcp
    udp :=
      if strStartsWith c.protocol.toLower "tcp" then g.udp
      else if strStartsWith c.protocol.toLower "udp" then g.udp + 1 else g.udp }

/-- The zero group created when a pid is first seen:
`{ name: conn.process || 'System', pid, connections: 0, tcp: 0, udp: 0 }`. -/
def freshGroup (c : ConnRecord) : ProcGroup :=
  ⟨if c.process = "" then "System" else c.process, connKey c, 0, 0, 0⟩

/-- Update `aggregated.set(pid, existing)` over an insertion-ordered map,
modelled as an association list keyed by `pid`. -/
def upsertConn (gs : List ProcGroup) (c : ConnRecord) : List ProcGroup :=
  match gs with
  | [] => [bumpGroup (freshGroup c) c]
  | g :: rest => if g.pid = connKey c then bumpGroup g c :: rest else g :: upsertConn rest c

/-- The pass `connections.forEach(...)` over the `aggregated` map;
`Array.from(aggregated.values())` preserves first-insertion order. -/
def aggregateConns (conns : List ConnRecord) : List ProcGroup :=
  conns.foldl upsertConn []

/-- The divisor `totals.reduce((sum, entry) => sum + entry.connections, 0) || 1`. -/
def connectionTotal (gs : List ProcGroup) : ℕ :=
  if (gs.map (fun g => g.connections)).sum = 0 then 1
  else (gs.map (fun g => g.connections)).sum

/-- One entry of the `ranked` output. -/
structure ProcUsageRow where
  pid : Int
  name : String
  connections : ℕ
  tcp : ℕ
  udp : ℕ
  rx : ℚ
  tx : ℚ
  activityScore : ℚ
deriving DecidableEq

/-- The `.map((entry) => …)` body: `ratio = entry.connections /
connectionTotal`, `rx = rxSec * ratio`, `tx = txSec * ratio`,
`activityScore = ratio`. -/
def toRow (total : ℕ) (rxSec txSec : ℚ) (g : ProcGroup) : ProcUsageRow :=
  ⟨g.pid, g.name, g.connections, g.tcp, g.udp,
   rxSec * ((g.connections : ℚ) / (total : ℚ)),
   txSec * ((g.connections : ℚ) / (total : ℚ)),
   (g.connections : ℚ) / (total : ℚ)⟩

/-- The mapped (pre-sort, pre-truncation) row list. -/
def processUsageRows (conns : List ConnRecord) (rxSec txSec : ℚ) : List ProcUsageRow :=
  (aggregateConns conns).map (toRow (connectionTotal (aggregateConns conns)) rxSec txSec)

theorem sum_upsertConn (gs : List ProcGroup) (c : ConnRecord) :
    ((upsertConn gs c).map (fun g => g.connections)).sum
      = ((gs.map (fun g => g.connections)).sum) + 1 := by
  induction gs with
  | nil => simp [upsertConn, bumpGroup, freshGroup]
  | cons g rest ih =>
    by_cases h : g.pid = connKey c
    · simp only [upsertConn, if_pos h, List.map_cons, List.sum_cons, bumpGroup]
      omega
    · simp only [upsertConn, if_neg h, List.map_cons, List.sum_cons, ih]
      omega

theorem sum_aggregateConns (conns : List ConnRecord) : ∀ gs : List ProcGroup,
    ((conns.foldl upsertConn gs).map (fun g => g.connections)).sum
      = ((gs.map (fun g => g.connections)).sum) + conns.length := by
  induction conns with
  | nil => intro gs; simp
  | cons c rest ih =>
    intro gs
    rw [List.foldl_cons, ih, sum_upsertConn, List.length_cons]
    omega

theorem map_sum_div (gs : List ProcGroup) (N : ℚ) :
    (gs.map (fun g => (g.connections : ℚ) / N)).sum
      = (((gs.map (fun g => g.connections)).sum : ℕ) : ℚ) / N := by
  induction gs with
  | nil => simp
  | cons g rest ih =>
    simp only [List.map_cons, List.sum_cons, ih, Nat.cast_add]
    rw [add_div]

/-- C6: each group's activity ratio is its connection count over the
total connection count (with the total floored to 1 when no connections
exist); for a non-empty snapshot the total equals the snapshot length
and the activity ratios over all groups sum to exactly 1. -/
theorem ratio_conservation (conns : List ConnRecord) (rxSec txSec : ℚ) (h : conns ≠ []) :
    connectionTotal (aggregateConns conns) = conns.length
    ∧ (∀ row ∈ processUsageRows conns rxSec txSec,
        row.activityScore = (row.connections : ℚ) / (connectionTotal (aggregateConns conns) : ℚ))
    ∧ ((processUsageRows conns rxSec txSec).map (fun r => r.activityScore)).sum = 1
    ∧ connectionTotal (aggregateConns []) = 1 := by
  have hsum : ((aggregateConns conns).map (fun g => g.connections)).sum = conns.length := by
    rw [aggregateConns, sum_aggregateConns]
    simp
  have hlen : conns.length ≠ 0 := fun h2 => h (List.length_eq_zero.mp h2)
  have htot : connectionTotal (aggregateConns conns) = conns.length := by
    rw [connectionTotal, hsum, if_neg hlen]
  refine ⟨htot, ?_, ?_, rfl⟩
  · intro row hr
    obtain ⟨g, hg, rfl⟩ := List.mem_map.mp hr
    rfl
  · rw [processUsageRows, List.map_map]
    have hcomp : ((fun r => r.activityScore)
          ∘ toRow (connectionTotal (aggregateConns conns)) rxSec txSec)
        = fun g => (g.connections : ℚ) / ((connectionTotal (aggregateConns conns) : ℕ) : ℚ) := rfl
    rw [hcomp, map_sum_div, hsum, htot]
    exact div_self (by exact_mod_cast hlen)

/-- C6 witness: the one-connection snapshot `[{pid 7, tcp}]` has total 1
and its single group's activity ratio sums to 1. -/
theorem ratio_conservation_witness :
    connectionTotal (aggregateConns [⟨some 7, "chrome", "tcp"⟩]) = 1
    ∧ ((processUsageRows [⟨some 7, "chrome", "tcp"⟩] 0 0).map
        (fun r => r.activityScore)).sum = 1 := by
  have h := ratio_conservation [⟨some 7, "chrome", "tcp"⟩] 0 0 (by simp)
  exact ⟨h.1, h.2.2.1⟩

/-! ### Stable descending sort and top-8 truncation
(`ranked = totals.map(…).sort((a, b) => b.activityScore -
a.activityScore).slice(0, 8)`; `Array.prototype.sort` is stable) -/

/-- Stable descending insertion: the inserted element goes before the
first element whose score it reaches, hence before later-arriving
equal-score elements. -/
def insertRanked (x : ProcUsageRow) : List ProcUsageRow → List ProcUsageRow
  | [] => [x]
  | y :: ys => if y.activityScore ≤ x.activityScore then x :: y :: ys else y :: insertRanked x ys

/-- The stable sort by descending `activityScore`.  Elements are
inserted from last to first, so each element ends up before every
equal-score element that arrived after it — the semantics of the stable
JavaScript comparator sort. -/
def sortRanked : List ProcUsageRow → List ProcUsageRow
  | [] => []
  | x :: xs => insertRanked x (sortRanked xs)

/-- The full aggregation output: map, stable descending sort,
`slice(0, 8)`. -/
def processUsage (conns : List ConnRecord) (rxSec txSec : ℚ) : List ProcUsageRow :=
  (sortRanked (processUsageRows conns rxSec txSec)).take 8

theorem length_insertRanked (x : ProcUsageRow) (l : List ProcUsageRow) :
    (insertRanked x l).length = l.length + 1 := by
  induction l with
  | nil => rfl
  | cons y ys ih =>
    rw [insertRanked]
    split_ifs <;> simp [ih]

theorem length_sortRanked (l : List ProcUsageRow) : (sortRanked l).length = l.length := by
  induction l with
  | nil => rfl
  | cons x xs ih => rw [sortRanked, length_insertRanked, ih, List.length_cons]

theorem mem_insertRanked (x y : ProcUsageRow) (l : List ProcUsageRow) :
    y ∈ insertRanked x l ↔ y = x ∨ y ∈ l := by
  induction l with
  | nil => simp [insertRanked]
  | cons z zs ih =>
    rw [insertRanked]
    split_ifs <;> simp [ih] <;> tauto

theorem pairwise_insertRanked (x : ProcUsageRow) (l : List ProcUsageRow)
    (h : l.Pairwise (fun a b => b.activityScore ≤ a.activityScore)) :
    (insertRanked x l).Pairwise (fun a b => b.activityScore ≤ a.activityScore) := by
  induction l with
  | nil => simp [insertRanked]
  | cons y ys ih =>
    obtain ⟨hy, hys⟩ := List.pairwise_cons.mp h
    rw [insertRanked]
    split_ifs with hle
    · exact List.pairwise_cons.mpr
        ⟨fun z hz => by
          rcases List.mem_cons.mp hz with rfl | hz
          · exact hle
          · exact (hy z hz).trans hle, h⟩
    · refine List.pairwise_cons.mpr ⟨fun z hz => ?_, ih hys⟩
      rcases (mem_insertRanked x z ys).mp hz with rfl | hz
      · exact le_of_lt (not_le.mp hle)
      · exact hy z hz

theorem pairwise_sortRanked (l : List ProcUsageRow) :
    (sortRanked l).Pairwise (fun a b => b.activityScore ≤ a.activityScore) := by
  induction l with
  | nil => simp [sortRanked]
  | cons x xs ih => exact pairwise_insertRanked x (sortRanked xs) ih

theorem filter_insertRanked (s : ℚ) (x : ProcUsageRow) (l : List ProcUsageRow) :
    (insertRanked x l).filter (fun r => decide (r.activityScore = s))
      = if x.activityScore = s
        then x :: l.filter (fun r => decide (r.activityScore = s))
        else l.filter (fun r => decide (r.activityScore = s)) := by
  induction l with
  | nil => by_cases hx : x.activityScore = s <;> simp [insertRanked, hx]
  | cons y ys ih =>
    rw [insertRanked]
    by_cases hle : y.activityScore ≤ x.activityScore
    · rw [if_pos hle]
      by_cases hx : x.activityScore = s <;> simp [List.filter_cons, hx]
    · rw [if_neg hle]
      by_cases hx : x.activityScore = s <;> by_cases hy : y.activityScore = s
      · exact absurd (le_of_eq (hy.trans hx.symm)) hle
      · simp [List.filter_cons, hx, hy, ih]
      · simp [List.filter_cons, hx, hy, ih]
      · simp [List.filter_cons, hx, hy, ih]

/-- Stability of the sort: for every score value, the equal-score rows
appear in the sorted list exactly in their arrival order. -/
theorem filter_sortRanked (s : ℚ) (l : List ProcUsageRow) :
    (sortRanked l).filter (fun r => decide (r.activityScore = s))
      = l.filter (fun r => decide (r.activityScore = s)) := by
  induction l with
  | nil => rfl
  | cons x xs ih =>
    rw [sortRanked, filter_insertRanked]
    by_cases hx : x.activityScore = s <;> simp [List.filter_cons, hx, ih]

theorem sortRanked_eq_self (l : List ProcUsageRow)
    (h : l.Pairwise (fun a b => b.activityScore ≤ a.activityScore)) :
    sortRanked l = l := by
  induction l with
  | nil => rfl
  | cons x xs ih =>
    obtain ⟨hx, hxs⟩ := List.pairwise_cons.mp h
    rw [sortRanked, ih hxs]
    cases xs with
    | nil => rfl
    | cons y ys => rw [insertRanked, if_pos (hx y (List.mem_cons_self y ys))]

/-- The spec scenario input: 20 distinct processes (pids 1..20) with one
tcp connection each. -/
def conns20 : List ConnRecord :=
  (List.range 20).map (fun n => ⟨some ((n : Int) + 1), "", "tcp"⟩)

/-- C7: the aggregation output is the stable descending sort by
`activityScore` truncated to at most 8 entries — its length is
`min 8 (number of groups)`, it is sorted descending, and for every score
value the equal-score rows keep their arrival order (the grouping
preserves first-occurrence order of the connection list); for 20
distinct processes with one connection each the result is exactly 8 rows
in stable tie order (pids 1..8 in arrival order). -/
theorem top8_truncation (conns : List ConnRecord) (rxSec txSec : ℚ) (s : ℚ) :
    (processUsage conns rxSec txSec).length = min 8 (aggregateConns conns).length
    ∧ (processUsage conns rxSec txSec).Pairwise
        (fun a b => b.activityScore ≤ a.activityScore)
    ∧ (sortRanked (processUsageRows conns rxSec txSec)).filter
          (fun r => decide (r.activityScore = s))
        = (processUsageRows conns rxSec txSec).filter (fun r => decide (r.activityScore = s))
    ∧ (processUsage conns20 1 1).map (fun r => r.pid) = [1, 2, 3, 4, 5, 6, 7, 8]
    ∧ (processUsage conns20 1 1).length = 8 := by
  have hlen : ∀ (cs : List ConnRecord) (rx tx : ℚ),
      (processUsage cs rx tx).length = min 8 (aggregateConns cs).length := by
    intro cs rx tx
    rw [processUsage, List.length_take, length_sortRanked, processUsageRows, List.length_map]
  refine ⟨hlen conns rxSec txSec, ?_, filter_sortRanked s _, ?_, ?_⟩
  · exact (pairwise_sortRanked (processUsageRows conns rxSec txSec)).sublist
      (List.take_sublist 8 _)
  · have hconn1 : ∀ g ∈ aggregateConns conns20, g.connections = 1 := by decide
    have hsc : ∀ r ∈ processUsageRows conns20 1 1,
        r.activityScore
          = ((1 : ℕ) : ℚ) / ((connectionTotal (aggregateConns conns20) : ℕ) : ℚ) := by
      intro r hr
      obtain ⟨g, hg, rfl⟩ := List.mem_map.mp hr
      show (g.connections : ℚ) / _ = _
      rw [hconn1 g hg]
    have hpair : (processUsageRows conns20 1 1).Pairwise
        (fun a b => b.activityScore ≤ a.activityScore) :=
      List.pairwise_of_forall_mem_list (fun a ha b hb => le_of_eq ((hsc b hb).trans (hsc a ha).symm))
    rw [processUsage, sortRanked_eq_self _ hpair, List.map_take, processUsageRows,
      List.map_map]
    show (((aggregateConns conns20).map (fun g => g.pid)).take 8) = [1, 2, 3, 4, 5, 6, 7, 8]
    decide
  · rw [hlen]
    decide

end NetMonitor

namespace NetMonitor

/-! ### Geo resolver and cache (`useGeoLocation.ts` collection loop and
`GLOBAL_IP_CACHE`/`pendingRequests`, composed with the `main.ts`
`get-ip-locations` handler) -/

/-- The payload a positive lookup produces (`{lat, lon, country, city,
isp, asn}`). -/
structure GeoLoc where
  lat : ℚ
  lon : ℚ
  country : String
  city : String
  isp : String
  asn : String
deriving DecidableEq

/-- The private/loopback filter at the top of the hook's collection loop
— a literal transcription of the `if (...) continue` condition. -/
def isPrivateIp (ip : String) : Bool :=
  ip == "127.0.0.1" || ip == "::1"
    || strStartsWith ip "192.168." || strStartsWith ip "10."
    || strStartsWith ip "172.16." || strStartsWith ip "172.17."
    || strStartsWith ip "172.18." || strStartsWith ip "172.19."
    || strStartsWith ip "172.2" || strStartsWith ip "172.30." || strStartsWith ip "172.31."

/-- Test `GLOBAL_IP_CACHE.has(ip)` over the cache modelled as an
insertion-ordered association list (`none` is a cached negative
result). -/
def cacheHas (cache : List (String × Option GeoLoc)) (ip : String) : Bool :=
  cache.any (fun e => e.1 == ip)

/-- Renderer-side state: the module-level `GLOBAL_IP_CACHE` and the
`pendingRequests` ref. -/
structure ResolverState where
  cache : List (String × Option GeoLoc)
  pending : List String
deriving DecidableEq

/-- The hook's collection loop: skip private IPs, skip IPs already in
the cache (positive or negative) or currently pending, otherwise push
the IP onto `ipsToFetch` and mark it pending.  Returns `(ipsToFetch,
pending after the loop)`. -/
def collectToFetch (cache : List (String × Option GeoLoc)) :
    List String → List String → List String × List String
  | pending, [] => ([], pending)
  | pending, ip :: rest =>
    if isPrivateIp ip then collectToFetch cache pending rest
    else if cacheHas cache ip ∨ ip ∈ pending then collectToFetch cache pending rest
    else
      (ip :: (collectToFetch cache (ip :: pending) rest).1,
       (collectToFetch cache (ip :: pending) rest).2)

/-- Main-side `[...new Set(ips)]` — first-occurrence deduplication. -/
def dedupIps (seen : List String) : List String → List String
  | [] => []
  | ip :: rest => if ip ∈ seen then dedupIps seen rest else ip :: dedupIps (ip :: seen) rest

/-- The `get-ip-locations` handler: deduplicate the request, then run
exactly one underlying lookup (`oracle`) per unique IP, producing
`results[ip] = payload-or-null`.  The second component is the list of
IPs actually passed to the underlying lookup, in order. -/
def getIpLocations (oracle : String → Option GeoLoc) (ips : List String) :
    List (String × Option GeoLoc) × List String :=
  ((dedupIps [] ips).map (fun ip => (ip, oracle ip)), dedupIps [] ips)

/-- Update `GLOBAL_IP_CACHE.set(ip, v)` on the association list: replace the
entry if the key exists, append otherwise. -/
def cacheSet (cache : List (String × Option GeoLoc)) (ip : String) (v : Option GeoLoc) :
    List (String × Option GeoLoc) :=
  match cache with
  | [] => [(ip, v)]
  | e :: rest => if e.1 == ip then (ip, v) :: rest else e :: cacheSet rest ip v

/-- The hook's `Object.entries(results).forEach` body: cache every
returned entry — positive or `null` — and clear its pending mark. -/
def applyResults (st : ResolverState) (results : List (String × Option GeoLoc)) :
    ResolverState :=
  results.foldl (fun acc r => ⟨cacheSet acc.cache r.1 r.2, acc.pending.erase r.1⟩) st

/-- One full resolve pass: collect the IPs to fetch, batch them to the
main process (which deduplicates and performs one underlying lookup
each), and fold the results into the cache.  The second component is the
list of underlying lookups performed. -/
def resolveIps (oracle : String → Option GeoLoc) (st : ResolverState) (ips : List String) :
    ResolverState × List String :=
  (applyResults ⟨st.cache, (collectToFetch st.cache st.pending ips).2⟩
      (getIpLocations oracle (collectToFetch st.cache st.pending ips).1).1,
   (getIpLocations oracle (collectToFetch st.cache st.pending ips).1).2)

theorem mem_collect (cache : List (String × Option GeoLoc)) :
    ∀ (ips pending : List String) (x : String),
      x ∈ (collectToFetch cache pending ips).1 →
      x ∉ pending ∧ cacheHas cache x = false ∧ isPrivateIp x = false := by
  intro ips
  induction ips with
  | nil => intro pending x hx; simp [collectToFetch] at hx
  | cons ip rest ih =>
    intro pending x hx
    simp only [collectToFetch] at hx
    split at hx
    · exact ih pending x hx
    · split at hx
      · exact ih pending x hx
      · next h1 h2 =>
        rcases List.mem_cons.mp hx with rfl | hx2
        · refine ⟨fun hp => h2 (Or.inr hp), ?_, ?_⟩
          · by_cases hcb : cacheHas cache x = true
            · exact absurd (Or.inl hcb) h2
            · simpa using hcb
          · simpa using h1
        · have h3 := ih (ip :: pending) x hx2
          exact ⟨fun hp => h3.1 (List.mem_cons_of_mem _ hp), h3.2.1, h3.2.2⟩

theorem nodup_collect (cache : List (String × Option GeoLoc)) :
    ∀ (ips pending : List String), (collectToFetch cache pending ips).1.Nodup := by
  intro ips
  induction ips with
  | nil => intro pending; simp [collectToFetch]
  | cons ip rest ih =>
    intro pending
    simp only [collectToFetch]
    split
    · exact ih pending
    · split
      · exact ih pending
      · refine List.nodup_cons.mpr ⟨fun hmem => ?_, ih (ip :: pending)⟩
        exact (mem_collect cache rest (ip :: pending) ip hmem).1 (List.mem_cons_self ip pending)

theorem mem_dedupIps : ∀ (l seen : List String) (x : String),
    x ∈ dedupIps seen l → x ∈ l ∧ x ∉ seen := by
  intro l
  induction l with
  | nil => intro seen x hx; simp [dedupIps] at hx
  | cons ip rest ih =>
    intro seen x hx
    simp only [dedupIps] at hx
    split at hx
    · have h := ih seen x hx
      exact ⟨List.mem_cons_of_mem _ h.1, h.2⟩
    · next hns =>
      rcases List.mem_cons.mp hx with rfl | hx2
      · exact ⟨List.mem_cons_self _ _, hns⟩
      · have h := ih (ip :: seen) x hx2
        exact ⟨List.mem_cons_of_mem _ h.1, fun hs => h.2 (List.mem_cons_of_mem _ hs)⟩

theorem nodup_dedupIps : ∀ (l seen : List String), (dedupIps seen l).Nodup := by
  intro l
  induction l with
  | nil => intro seen; simp [dedupIps]
  | cons ip rest ih =>
    intro seen
    simp only [dedupIps]
    split
    · exact ih seen
    · refine List.nodup_cons.mpr ⟨fun hmem => ?_, ih (ip :: seen)⟩
      exact (mem_dedupIps rest (ip :: seen) ip hmem).2 (List.mem_cons_self ip seen)

theorem cacheHas_iff (cache : List (String × Option GeoLoc)) (y : String) :
    cacheHas cache y = true ↔ y ∈ cache.map Prod.fst := by
  simp only [cacheHas, List.any_eq_true, beq_iff_eq, List.mem_map]

theorem mem_keys_cacheSet (ip y : String) (v : Option GeoLoc) :
    ∀ cache : List (String × Option GeoLoc),
      (y ∈ (cacheSet cache ip v).map Prod.fst ↔ y = ip ∨ y ∈ cache.map Prod.fst) := by
  intro cache
  induction cache with
  | nil => simp [cacheSet]
  | cons e rest ih =>
    rw [cacheSet]
    split
    · next he =>
      rw [beq_iff_eq] at he
      simp only [List.map_cons, List.mem_cons, he]
      tauto
    · simp only [List.map_cons, List.mem_cons, ih]
      tauto

theorem cacheHas_applyResults (results : List (String × Option GeoLoc)) :
    ∀ (st : ResolverState) (x : String),
      cacheHas (applyResults st results).cache x = true
        ↔ (x ∈ results.map Prod.fst ∨ cacheHas st.cache x = true) := by
  induction results with
  | nil => intro st x; simp [applyResults]
  | cons r rest ih =>
    intro st x
    simp only [applyResults, List.foldl_cons] at ih ⊢
    rw [ih ⟨cacheSet st.cache r.1 r.2, st.pending.erase r.1⟩ x]
    simp only [cacheHas_iff, mem_keys_cacheSet, List.map_cons, List.mem_cons]
    tauto

/-- The underlying lookups of one resolve pass are exactly the
deduplicated collected list; every looked-up IP was uncached, not
pending, and not private. -/
theorem mem_resolve_lookups (oracle : String → Option GeoLoc) (st : ResolverState)
    (ips : List String) (x : String) (h : x ∈ (resolveIps oracle st ips).2) :
    cacheHas st.cache x = false ∧ isPrivateIp x = false := by
  have hf : x ∈ (collectToFetch st.cache st.pending ips).1 :=
    (mem_dedupIps _ _ _ h).1
  have h2 := mem_collect st.cache ips st.pending x hf
  exact ⟨h2.2.1, h2.2.2⟩

/-- C5: one resolve pass never performs the same underlying lookup twice
(the lookup list has no duplicates); on input `[A, A, B]` with `A`
already cached and `B` new it performs exactly the one lookup for `B`;
an IP present in the cache — positively or negatively — is never looked
up again; and every IP looked up in one pass (whatever the oracle
answered, including a negative result) is cached afterwards and is
therefore never looked up by a later pass. -/
theorem resolver_lookup_discipline (oracle : String → Option GeoLoc)
    (st : ResolverState) (ips ips₂ : List String) (A B : String)
    (hA : cacheHas st.cache A = true)
    (hBc : cacheHas st.cache B = false)
    (hBp : B ∉ st.pending)
    (hBpriv : isPrivateIp B = false) :
    ((resolveIps oracle st ips).2).Nodup
    ∧ (resolveIps oracle st [A, A, B]).2 = [B]
    ∧ (∀ X, cacheHas st.cache X = true → X ∉ (resolveIps oracle st ips).2)
    ∧ (∀ X, X ∈ (resolveIps oracle st ips).2 →
        X ∉ (resolveIps oracle (resolveIps oracle st ips).1 ips₂).2) := by
  refine ⟨nodup_dedupIps _ _, ?_, ?_, ?_⟩
  · have hcol : (collectToFetch st.cache st.pending [A, A, B]).1 = [B] := by
      by_cases hpA : isPrivateIp A = true <;>
        simp [collectToFetch, hpA, hA, hBc, hBp, hBpriv]
    show (getIpLocations oracle (collectToFetch st.cache st.pending [A, A, B]).1).2 = [B]
    rw [hcol]
    simp [getIpLocations, dedupIps]
  · intro X hX hmem
    have h := (mem_resolve_lookups oracle st ips X hmem).1
    rw [hX] at h
    exact Bool.noConfusion h
  · intro X hX hX2
    have h1 : cacheHas (resolveIps oracle st ips).1.cache X = true := by
      simp only [resolveIps]
      refine (cacheHas_applyResults _ _ _).mpr (Or.inl ?_)
      simp only [resolveIps, getIpLocations] at hX ⊢
      simpa [List.map_map] using hX
    have h2 := (mem_resolve_lookups oracle _ ips₂ X hX2).1
    rw [h1] at h2
    exact Bool.noConfusion h2

/-- C5 witness: with `1.2.3.4` cached (negatively) and `8.8.8.8` new,
resolving `[1.2.3.4, 1.2.3.4, 8.8.8.8]` performs exactly one underlying
lookup, for `8.8.8.8`. -/
theorem resolver_lookup_discipline_witness :
    (resolveIps (fun _ => none) ⟨[("1.2.3.4", none)], []⟩
        ["1.2.3.4", "1.2.3.4", "8.8.8.8"]).2 = ["8.8.8.8"] :=
  (resolver_lookup_discipline (fun _ => none) ⟨[("1.2.3.4", none)], []⟩ [] []
    "1.2.3.4" "8.8.8.8" (by decide) (by decide) (by decide) (by decide)).2.1

/-- C10: the caller-side private filter contains the prefix test
`ip.startsWith('172.2')`, so every IP string beginning with `172.2` —
including the public addresses `172.2.0.1` and `172.200.0.1` — is
excluded: it is never passed to the underlying lookup and never occupies
a cache slot. -/
theorem private_filter_172 (ip X : String) (oracle : String → Option GeoLoc)
    (st : ResolverState) (ips : List String) :
    (strStartsWith ip "172.2" = true → isPrivateIp ip = true)
    ∧ isPrivateIp "172.2.0.1" = true
    ∧ isPrivateIp "172.200.0.1" = true
    ∧ (isPrivateIp X = true →
        X ∉ (resolveIps oracle st ips).2
        ∧ (cacheHas (resolveIps oracle st ips).1.cache X = true
            ↔ cacheHas st.cache X = true)) := by
  refine ⟨fun h => ?_, by decide, by decide, fun hX => ⟨?_, ?_⟩⟩
  · simp [isPrivateIp, h]
  · intro hmem
    have h2 := (mem_resolve_lookups oracle st ips X hmem).2
    rw [hX] at h2
    exact Bool.noConfusion h2
  · have hnk : X ∉ ((getIpLocations oracle
        (collectToFetch st.cache st.pending ips).1).1).map Prod.fst := by
      intro hk
      have hm : X ∈ (resolveIps oracle st ips).2 := by
        simpa [resolveIps, getIpLocations, List.map_map] using hk
      have h2 := (mem_resolve_lookups oracle st ips X hm).2
      rw [hX] at h2
      exact Bool.noConfusion h2
    simp only [resolveIps]
    rw [cacheHas_applyResults]
    exact or_iff_right hnk

/-- C10 witness: `172.200.0.1` (a public address) is filtered and a
resolve pass containing it performs no lookup for it. -/
theorem private_filter_172_witness :
    isPrivateIp "172.200.0.1" = true
    ∧ "172.200.0.1" ∉ (resolveIps (fun _ => none) ⟨[], []⟩
        ["172.200.0.1", "8.8.8.8"]).2 := by
  have h := private_filter_172 "172.200.0.1" "172.200.0.1" (fun _ => none) ⟨[], []⟩
    ["172.200.0.1", "8.8.8.8"]
  exact ⟨h.1 (by decide), (h.2.2.2 (h.1 (by decide))).1⟩

end NetMonitor
